import Mathlib

/-!
# Test Creator (`src/App.js`): shuffle engine, question store and PDF layout

A shallow embedding of the algorithmic parts of the React component `App`:

* `shuffleArray` (lines 74-81), `shuffleQuestions` (84-91), `shuffleOptions` (94-99);
* the question-store updaters `addQuestion` ... `removeQuestion` (16-71);
* the page layout computed by `generatePDF` (102-147).

Conventions of the embedding.

* `Math.floor(Math.random() * (i + 1))` is not computed: the integer `j` it yields
  is supplied by a draw oracle.  For `shuffleArray` the oracle is a function
  `draw : Nat → Nat` giving the `j` drawn at loop index `i`; every run of the loop
  reads each index at most once, so a sequence of draws and such a function carry
  the same information.
* `numVariants` is a JavaScript number; the embedding covers its integer values (`Int`).
* Coordinates and the font line height live in an arbitrary linearly ordered
  commutative ring `R` (instantiated with `Int` for evaluation).
-/

namespace TestCreator

/-! ## Data model -/

/-- A question record `{ text, options }` of the `questions` state. -/
structure Question where
  text : String
  options : List String
  deriving DecidableEq, Repr

/-! ## Shuffle engine -/

/-- The destructuring exchange `[a[i], a[j]] = [a[j], a[i]]` (line 78): the right-hand
side is read first, then `a[i]` and `a[j]` are assigned in that order.  Both indices are
in range in every run of `shuffleArray`; for an index outside the array (which would
make a sparse JavaScript array) the list is returned as it is. -/
def swap {α : Type} (a : List α) (i j : Nat) : List α :=
  match a[i]?, a[j]? with
  | some x, some y => (a.set i y).set j x
  | _, _ => a

/-- The loop `for (let i = ...; i > 0; i--)` of `shuffleArray` (lines 76-79), entered
with loop variable `i`; `draw i` is the value of `Math.floor(Math.random() * (i + 1))`
in the iteration for `i`. -/
def shuffleLoop {α : Type} (draw : Nat → Nat) : Nat → List α → List α
  | 0, shuffled => shuffled
  | i + 1, shuffled => shuffleLoop draw i (swap shuffled (i + 1) (draw (i + 1)))

/-- Embedding of `shuffleArray` (lines 74-81): copy, then the loop from `length - 1`. -/
def shuffleArray {α : Type} (draw : Nat → Nat) (array : List α) : List α :=
  shuffleLoop draw (array.length - 1) array

/-- A draw oracle is admissible for an array of length `n` when each draw that the
loop reads (indices `1 ≤ i < n`) lies in `[0, i]`, as `Math.floor(Math.random() * (i + 1))`
does. -/
def Admissible (n : Nat) (draw : Nat → Nat) : Prop :=
  ∀ i, 1 ≤ i → i < n → draw i ≤ i

/-- The call `a.slice(start, end)` of `Array.prototype.slice` for non-negative integer
bounds: the elements at the indices from `start` up to `end`, both capped at the length. -/
def slice {α : Type} (a : List α) (start stop : Nat) : List α :=
  (a.take stop).drop start

/-- The value of `Math.ceil(len / numVariants)` for a positive integer `numVariants`. -/
def variantSize (len n : Nat) : Nat :=
  (len + n - 1) / n

/-- The array `variants` of `shuffleQuestions` (lines 87-89), for `numVariants = n ≥ 0`:
chunk `i` is `shuffled.slice(i * variantSize, (i + 1) * variantSize)`.  For `n = 0` the
JavaScript `variantSize` is `Infinity` or `NaN`, but no chunk is computed. -/
def variants {α : Type} (shuffled : List α) (n : Nat) : List (List α) :=
  (List.range n).map fun i =>
    slice shuffled (i * variantSize shuffled.length n) ((i + 1) * variantSize shuffled.length n)

/-- Embedding of `shuffleQuestions` (lines 84-91): the result is the new value of the
`questions` state.  The call `Array(numVariants)` throws a `RangeError` when the length is
negative or is 2^32 or more, and then `setQuestions` is never reached. -/
def shuffleQuestions (draw : Nat → Nat) (questions : List Question) (numVariants : Int) :
    Except String (List Question) :=
  let shuffled := shuffleArray draw questions
  if numVariants < 0 ∨ 4294967296 ≤ numVariants then
    .error "RangeError: Invalid array length"
  else
    .ok (variants shuffled numVariants.toNat).flatten

/-- The `map` of `shuffleOptions` (lines 95-98) from question position `k` on: the
question at position `k` has its options shuffled with the draws `draws k`. -/
def shuffleOptionsFrom (draws : Nat → Nat → Nat) : Nat → List Question → List Question
  | _, [] => []
  | k, q :: rest =>
    { q with options := shuffleArray (draws k) q.options } :: shuffleOptionsFrom draws (k + 1) rest

/-- Embedding of `shuffleOptions` (lines 94-99); `draws k i` is the draw made at loop
index `i` while shuffling the options of the question at position `k`. -/
def shuffleOptions (draws : Nat → Nat → Nat) (prev : List Question) : List Question :=
  shuffleOptionsFrom draws 0 prev

/-! ## Question store -/

/-- The code points removed by `String.prototype.trim`: ECMAScript `WhiteSpace` and
`LineTerminator`. -/
def isTrimmed (c : Char) : Bool :=
  c.toNat = 0x09 || c.toNat = 0x0A || c.toNat = 0x0B || c.toNat = 0x0C || c.toNat = 0x0D ||
  c.toNat = 0x20 || c.toNat = 0xA0 || c.toNat = 0x1680 ||
  (0x2000 ≤ c.toNat && c.toNat ≤ 0x200A) ||
  c.toNat = 0x2028 || c.toNat = 0x2029 || c.toNat = 0x202F || c.toNat = 0x205F ||
  c.toNat = 0x3000 || c.toNat = 0xFEFF

/-- The test `s.trim() === ''` of `addQuestion` and `addOption`. -/
def isBlank (s : String) : Bool :=
  s.toList.all isTrimmed

/-- Updater of `addQuestion` (lines 16-20); `currentQuestion` is the state it reads. -/
def addQuestion (currentQuestion : String) (prev : List Question) : List Question :=
  if isBlank currentQuestion then prev
  else prev ++ [{ text := currentQuestion, options := [] }]

/-- Updater of `addOption` (lines 23-39); `selectedQuestionIndex` (`none` for `null`) and
`currentOption` are the state it reads.  The result is `none` when the JavaScript throws
(`question` is `undefined`). -/
def addOption (selectedQuestionIndex : Option Nat) (currentOption : String)
    (prev : List Question) : Option (List Question) :=
  match selectedQuestionIndex with
  | none => some prev
  | some index =>
    if isBlank currentOption then some prev
    else
      match prev[index]? with
      | none => none
      | some question =>
        if question.options.contains currentOption then some prev
        else some (prev.set index { question with options := question.options ++ [currentOption] })

/-- Updater of `updateQuestion` (lines 42-48); `none` when the JavaScript throws. -/
def updateQuestion (index : Nat) (newText : String) (prev : List Question) :
    Option (List Question) :=
  match prev[index]? with
  | none => none
  | some question => some (prev.set index { question with text := newText })

/-- What the updater of `updateOption` leaves behind: a question list, an exception, or
an option array with holes (which no list of strings stands for). -/
inductive Outcome where
  | stored (questions : List Question)
  | thrown
  | holes
  deriving DecidableEq, Repr

/-- Updater of `updateOption` (lines 51-57): the plain assignment
`options[optionIndex] = newOption`, with no look at the other options.  An index equal
to the length appends; an index past the length makes JavaScript store an array with
holes; with no question at `questionIndex` the assignment throws. -/
def updateOption (questionIndex optionIndex : Nat) (newOption : String)
    (prev : List Question) : Outcome :=
  match prev[questionIndex]? with
  | none => .thrown
  | some question =>
    if optionIndex < question.options.length then
      .stored (prev.set questionIndex
        { question with options := question.options.set optionIndex newOption })
    else if optionIndex = question.options.length then
      .stored (prev.set questionIndex { question with options := question.options ++ [newOption] })
    else .holes

/-- Updater of `removeOption` (lines 60-66): `options.splice(optionIndex, 1)`; `none` when
the JavaScript throws. -/
def removeOption (questionIndex optionIndex : Nat) (prev : List Question) :
    Option (List Question) :=
  match prev[questionIndex]? with
  | none => none
  | some question =>
    some (prev.set questionIndex { question with options := question.options.eraseIdx optionIndex })

/-- Updater of `removeQuestion` (lines 69-71): `prev.filter((_, i) => i !== index)`. -/
def removeQuestion (index : Nat) (prev : List Question) : List Question :=
  prev.eraseIdx index

/-- The part of the component state that the store operations read and write:
`questions` (line 5) and `selectedQuestionIndex` (line 9, `none` for `null`). -/
structure AppState where
  questions : List Question
  selectedQuestionIndex : Option Nat
  deriving DecidableEq, Repr

/-- The state after the first render: `useState([])` and `useState(null)`. -/
def initialState : AppState :=
  { questions := [], selectedQuestionIndex := none }

/-- The calls of the store operations with the arguments their callers choose.  The
texts come from input fields and are arbitrary; `addOption` takes its question index
from the state, not from its caller.  `updateQuestion` has no call site in the component
and is listed with arbitrary arguments, so the runs of `run` cover every run of the
component.  A `numVariants` that is not an integer makes `Array(numVariants)` throw, which
stores nothing, and is left out. -/
inductive Event where
  | addQuestion (currentQuestion : String)
  | addOption (currentOption : String)
  | updateQuestion (index : Nat) (newText : String)
  | updateOption (questionIndex optionIndex : Nat) (newOption : String)
  | removeOption (questionIndex optionIndex : Nat)
  | removeQuestion (index : Nat)
  | shuffleQuestions (draw : Nat → Nat) (numVariants : Int)
  | shuffleOptions (draws : Nat → Nat → Nat)

/-- The option input and its remove button (lines 211-225) exist for the options that
`questions.map` and `q.options.map` render: question `questionIndex` exists and has an
option at `optionIndex`. -/
def optionRendered (questions : List Question) (questionIndex optionIndex : Nat) : Bool :=
  match questions[questionIndex]? with
  | none => false
  | some question => decide (optionIndex < question.options.length)

/-- One store operation on the component state; `none` when the call cannot be made (no
rendered element makes it) or throws, in which case no new state is stored.  No
operation writes `selectedQuestionIndex`: its setter is never called. -/
def step (s : AppState) : Event → Option AppState
  | .addQuestion currentQuestion =>
    some { s with questions := addQuestion currentQuestion s.questions }
  | .addOption currentOption =>
    (addOption s.selectedQuestionIndex currentOption s.questions).map
      fun next => { s with questions := next }
  | .updateQuestion index newText =>
    (updateQuestion index newText s.questions).map fun next => { s with questions := next }
  | .updateOption questionIndex optionIndex newOption =>
    if optionRendered s.questions questionIndex optionIndex then
      match updateOption questionIndex optionIndex newOption s.questions with
      | .stored next => some { s with questions := next }
      | .thrown => none
      | .holes => none
    else none
  | .removeOption questionIndex optionIndex =>
    if optionRendered s.questions questionIndex optionIndex then
      (removeOption questionIndex optionIndex s.questions).map
        fun next => { s with questions := next }
    else none
  | .removeQuestion index =>
    if index < s.questions.length then
      some { s with questions := removeQuestion index s.questions }
    else none
  | .shuffleQuestions draw numVariants =>
    match shuffleQuestions draw s.questions numVariants with
    | .ok next => some { s with questions := next }
    | .error _ => none
  | .shuffleOptions draws => some { s with questions := shuffleOptions draws s.questions }

/-- A sequence of store operations run from a state, each on the state the one before
it stored; `none` as soon as one of them cannot be made or throws. -/
def run : List Event → AppState → Option AppState
  | [], s => some s
  | e :: rest, s => (step s e).bind (run rest)

/-! ## PDF layout -/

/-- The header fields read by `generatePDF`. -/
structure Header where
  subject : String
  grade : String
  date : String
  deriving DecidableEq, Repr

/-- One `page.drawText(text, { x, y, size, font })` instruction. -/
structure Draw (R : Type) where
  x : R
  y : R
  text : String
  size : Nat
  deriving DecidableEq, Repr

/-- A page made by `pdfDoc.addPage([width, height])` with the instructions drawn on it. -/
structure Page (R : Type) where
  width : Nat
  height : Nat
  lines : List (Draw R)
  deriving DecidableEq, Repr

/-- The mutable state of `generatePDF`: the pages already left behind, the current
`page` and the cursor `y`. -/
structure Layout (R : Type) where
  done : List (Page R)
  page : Page R
  y : R

section layout

variable {R : Type} [LinearOrderedCommRing R]

/-- The constant `pageMargin = 50` (line 105). -/
def pageMargin : R := 50

/-- The `height` read from `page.getSize()` of the first page (line 108). -/
def height : R := 800

/-- The page made by `pdfDoc.addPage([600, 800])`. -/
def newPage : Page R := { width := 600, height := 800, lines := [] }

/-- The call `page.drawText(text, { x, y, size, font })` on the current page. -/
def Layout.drawText (s : Layout R) (text : String) (x y : R) (size : Nat) : Layout R :=
  { s with page := { s.page with lines := s.page.lines ++ [{ x := x, y := y, text := text, size := size }] } }

/-- The constant `alphabet = 'ABCDEFGHIJKLMNOPQRSTUVWXYZ'` (line 117). -/
def alphabet : String := "ABCDEFGHIJKLMNOPQRSTUVWXYZ"

/-- The label `alphabet[optIdx % 26]` (line 132): `none` stands for `undefined`. -/
def label (optIdx : Nat) : Option Char :=
  alphabet.toList[optIdx % 26]?

/-- The template string of line 133 (`label`, a dot, a blank, the option); an
`undefined` label prints as the word `undefined`. -/
def optionText (optIdx : Nat) (option : String) : String :=
  (match label optIdx with
    | some c => c.toString
    | none => "undefined") ++ ". " ++ option

/-- The inner `q.options.forEach` (lines 131-136), from option index `optIdx` on;
`h` is `questionTextHeight`. -/
def drawOptions (h : R) : List String → Nat → Layout R → Layout R
  | [], _, s => s
  | option :: rest, optIdx, s =>
    drawOptions h rest (optIdx + 1)
      { s.drawText (optionText optIdx option) (pageMargin + 20) s.y 12 with y := s.y - (h + 5) }

/-- The body of `questions.forEach` (lines 124-143) for question `q` at index `idx`;
`h` is `font.heightAtSize(12)`. -/
def drawQuestion (h : R) (q : Question) (idx : Nat) (s : Layout R) : Layout R :=
  let s₁ := s.drawText (toString (idx + 1) ++ ". " ++ q.text) pageMargin s.y 12
  let s₂ := { s₁ with y := s₁.y - (h + 10) }
  let s₃ := drawOptions h q.options 0 s₂
  let s₄ := { s₃ with y := s₃.y - 10 }
  if s₄.y < pageMargin + 40 then
    { done := s₄.done ++ [s₄.page], page := newPage, y := height - pageMargin }
  else s₄

/-- The loop `questions.forEach` (lines 123-144), from question index `idx` on. -/
def drawQuestions (h : R) : List Question → Nat → Layout R → Layout R
  | [], _, s => s
  | q :: rest, idx, s => drawQuestions h rest (idx + 1) (drawQuestion h q idx s)

/-- One iteration of the variant loop (lines 120-146) for loop variable `i`: the title,
then every question of `questions`, then the gap of 40.  The `underline` entry passed
with the title is not a coordinate or size and is left out of the instruction. -/
def drawVariant (h : R) (questions : List Question) (i : Nat) (s : Layout R) : Layout R :=
  let s₁ := s.drawText ("Variant " ++ toString (i + 1)) pageMargin s.y 18
  let s₂ := { s₁ with y := s₁.y - 30 }
  let s₃ := drawQuestions h questions 0 s₂
  { s₃ with y := s₃.y - 40 }

/-- The loop `for (let i = 0; i < numVariants; i++)` (lines 119-147) with `count`
iterations left and loop variable `i`. -/
def drawVariants (h : R) (questions : List Question) : Nat → Nat → Layout R → Layout R
  | 0, _, s => s
  | count + 1, i, s => drawVariants h questions count (i + 1) (drawVariant h questions i s)

/-- The first page with the three header lines (lines 107-115). -/
def drawHeader (header : Header) : Layout R :=
  let s : Layout R := { done := [], page := newPage, y := height - pageMargin }
  let s := s.drawText ("Subject: " ++ header.subject) 400 s.y 14
  let s := s.drawText ("Grade: " ++ header.grade) 400 (s.y - 20) 14
  let s := s.drawText ("Date: " ++ header.date) 400 (s.y - 40) 14
  { s with y := s.y - 80 }

/-- The pages of the document built by `generatePDF` (lines 102-147), in order; `h` is
the value of `font.heightAtSize(12)`. -/
def generatePDF (header : Header) (questions : List Question) (numVariants : Int) (h : R) :
    List (Page R) :=
  let s := drawVariants h questions numVariants.toNat 0 (drawHeader header)
  s.done ++ [s.page]

/-- All draw instructions of a document, page after page. -/
def allLines (pages : List (Page R)) : List (Draw R) :=
  (pages.map fun p => p.lines).flatten

/-- A header line: drawn at `x = 400` with size 14 (lines 112-114). -/
def isHeaderLine (d : Draw R) : Prop := d.x = 400 ∧ d.size = 14

/-- A variant title: drawn at `x = pageMargin` with size 18 (line 120). -/
def isTitleLine (d : Draw R) : Prop := d.x = pageMargin ∧ d.size = 18

/-- A numbered question line: drawn at `x = pageMargin` with size 12 (line 128). -/
def isQuestionLine (d : Draw R) : Prop := d.x = pageMargin ∧ d.size = 12

/-- An option line: drawn at `x = pageMargin + 20` with size 12 (line 134). -/
def isOptionLine (d : Draw R) : Prop := d.x = pageMargin + 20 ∧ d.size = 12

instance (d : Draw R) : Decidable (isHeaderLine d) := by unfold isHeaderLine; infer_instance
instance (d : Draw R) : Decidable (isTitleLine d) := by unfold isTitleLine; infer_instance
instance (d : Draw R) : Decidable (isQuestionLine d) := by unfold isQuestionLine; infer_instance
instance (d : Draw R) : Decidable (isOptionLine d) := by unfold isOptionLine; infer_instance

/-- All draw instructions made so far, page after page. -/
def Layout.lines (s : Layout R) : List (Draw R) :=
  allLines (s.done ++ [s.page])

/-- In the sequence of instructions `L`, every question line that does not directly
follow a variant title (so every question line but the first of its variant) lies at
`pageMargin + 40` or above. -/
def CheckedQuestions (L : List (Draw R)) : Prop :=
  ∀ k t d, L[k]? = some t → L[k + 1]? = some d →
    isQuestionLine d → ¬ isTitleLine t → pageMargin + 40 ≤ d.y

/-- The placement facts kept along the layout for a sequence of instructions `L`: header
lines and (when `b` holds) variant titles lie at `pageMargin` or above, and the question
lines after a page-break check lie at `pageMargin + 40` or above. -/
structure Placed (b : Prop) (L : List (Draw R)) : Prop where
  header : ∀ d ∈ L, isHeaderLine d → pageMargin ≤ d.y
  question : CheckedQuestions L
  title : b → ∀ d ∈ L, isTitleLine d → pageMargin ≤ d.y

/-- The texts of the option lines among the instructions `L`, in drawing order. -/
def optionLineTexts (L : List (Draw R)) : List String :=
  (L.filter fun d => decide (isOptionLine d)).map fun d => d.text

/-- The number of numbered question lines among the instructions `L`. -/
def questionLineCount (L : List (Draw R)) : Nat :=
  L.countP fun d => decide (isQuestionLine d)

end layout

/-! ## Lemmas on the exchange and the shuffle loop -/

theorem swap_length {α : Type} (a : List α) (i j : Nat) : (swap a i j).length = a.length := by
  unfold swap
  split <;> simp

theorem swap_eq_of_lt {α : Type} (a : List α) {i j : Nat} (hi : i < a.length)
    (hj : j < a.length) : swap a i j = (a.set i a[j]).set j a[i] := by
  simp [swap, List.getElem?_eq_getElem hi, List.getElem?_eq_getElem hj]

theorem swap_perm {α : Type} (a : List α) (i j : Nat) : (swap a i j).Perm a := by
  classical
  by_cases hi : i < a.length
  · by_cases hj : j < a.length
    · rw [swap_eq_of_lt a hi hj, List.perm_iff_count]
      intro c
      rw [List.count_set _ _ _ _ (by simpa using hj), List.count_set _ _ _ _ hi]
      have h1 : 0 < a.count a[i] := List.count_pos_iff.2 (List.getElem_mem hi)
      have h2 : 0 < a.count a[j] := List.count_pos_iff.2 (List.getElem_mem hj)
      by_cases hij : i = j
      · subst hij
        by_cases e1 : a[i] = c
        · subst e1; simp
        · simp [e1]
      · rw [List.getElem_set_ne hij]
        by_cases e1 : a[i] = c
        · by_cases e2 : a[j] = c
          · simp [e1, e2]; subst e1; omega
          · simp [e1, e2]; subst e1; omega
        · by_cases e2 : a[j] = c
          · simp [e1, e2]
          · simp [e1, e2]
    · have : a[j]? = none := List.getElem?_eq_none (by omega)
      simp [swap, this]
  · have : a[i]? = none := List.getElem?_eq_none (by omega)
    simp [swap, this]

theorem getElem?_swap {α : Type} (a : List α) {i j : Nat} (hi : i < a.length)
    (hj : j < a.length) (k : Nat) :
    (swap a i j)[k]? = if k = j then a[i]? else if k = i then a[j]? else a[k]? := by
  rw [swap_eq_of_lt a hi hj]
  by_cases hkj : k = j
  · subst hkj
    simp [List.getElem?_set_self, hj, List.getElem?_eq_getElem hi]
  · by_cases hki : k = i
    · subst hki
      simp [hkj, List.getElem?_set_ne (Ne.symm hkj), hi, List.getElem?_eq_getElem hj]
    · simp [hkj, hki, List.getElem?_set_ne (Ne.symm hkj), List.getElem?_set_ne (Ne.symm hki)]

theorem shuffleLoop_length {α : Type} (draw : Nat → Nat) (i : Nat) (a : List α) :
    (shuffleLoop draw i a).length = a.length := by
  induction i generalizing a with
  | zero => rfl
  | succ i ih => simp [shuffleLoop, ih, swap_length]

theorem shuffleLoop_perm {α : Type} (draw : Nat → Nat) (i : Nat) (a : List α) :
    (shuffleLoop draw i a).Perm a := by
  induction i generalizing a with
  | zero => exact List.Perm.refl _
  | succ i ih => exact (ih _).trans (swap_perm a _ _)

theorem shuffleArray_length {α : Type} (draw : Nat → Nat) (a : List α) :
    (shuffleArray draw a).length = a.length :=
  shuffleLoop_length draw _ a

theorem shuffleArray_perm {α : Type} (draw : Nat → Nat) (a : List α) :
    (shuffleArray draw a).Perm a :=
  shuffleLoop_perm draw _ a

/-- The loop reads only the draws at indices `1 .. i`. -/
theorem shuffleLoop_congr {α : Type} (d₁ d₂ : Nat → Nat) (i : Nat) (a : List α)
    (h : ∀ m, 1 ≤ m → m ≤ i → d₁ m = d₂ m) : shuffleLoop d₁ i a = shuffleLoop d₂ i a := by
  induction i generalizing a with
  | zero => rfl
  | succ i ih =>
    simp only [shuffleLoop]
    rw [h (i + 1) (by omega) (by omega)]
    exact ih _ fun m h1 h2 => h m h1 (by omega)

/-- Positions above the loop variable are left alone when the draws are in range. -/
theorem shuffleLoop_getElem?_of_lt {α : Type} (draw : Nat → Nat) (i : Nat) (a : List α)
    (hi : i < a.length) (hd : ∀ m, 1 ≤ m → m ≤ i → draw m ≤ m) (k : Nat) (hk : i < k) :
    (shuffleLoop draw i a)[k]? = a[k]? := by
  induction i generalizing a with
  | zero => rfl
  | succ i ih =>
    simp only [shuffleLoop]
    have hj : draw (i + 1) ≤ i + 1 := hd (i + 1) (by omega) (by omega)
    rw [ih _ (by rw [swap_length]; omega) (fun m h1 h2 => hd m h1 (by omega)) (by omega),
      getElem?_swap a hi (by omega) k]
    rw [if_neg (by omega), if_neg (by omega)]

/-- The element left at the loop variable's position is the one drawn there. -/
theorem shuffleLoop_getElem?_self {α : Type} (draw : Nat → Nat) (i : Nat) (a : List α)
    (hi : i + 1 < a.length) (hd : ∀ m, 1 ≤ m → m ≤ i + 1 → draw m ≤ m) :
    (shuffleLoop draw (i + 1) a)[i + 1]? = a[draw (i + 1)]? := by
  have hj : draw (i + 1) ≤ i + 1 := hd (i + 1) (by omega) (by omega)
  simp only [shuffleLoop]
  rw [shuffleLoop_getElem?_of_lt draw i _ (by rw [swap_length]; omega)
      (fun m h1 h2 => hd m h1 (by omega)) (i + 1) (by omega),
    getElem?_swap a hi (by omega) (i + 1)]
  by_cases h : i + 1 = draw (i + 1)
  · rw [if_pos h, ← h]
  · rw [if_neg h, if_pos rfl]

theorem eq_of_perm_of_tail_agree {α : Type} (a b : List α) (hp : b.Perm a)
    (h : ∀ k, 0 < k → b[k]? = a[k]?) : b = a := by
  classical
  cases a with
  | nil => exact hp.eq_nil
  | cons x s =>
    cases b with
    | nil => exact absurd hp.symm.eq_nil (by simp)
    | cons y t =>
      have hts : t = s := by
        apply List.ext_getElem?
        intro k
        simpa using h (k + 1) (by omega)
      subst hts
      have hc := (List.perm_iff_count.1 hp) y
      simp only [List.count_cons_self, List.count_cons] at hc
      by_cases hxy : x = y
      · rw [hxy]
      · simp [hxy] at hc

/-- Two in-range draw sequences giving the same result of the loop are the same. -/
theorem shuffleLoop_draws_unique {α : Type} (d₁ d₂ : Nat → Nat) (i : Nat) (a : List α)
    (hnd : a.Nodup) (hi : i < a.length)
    (h₁ : ∀ m, 1 ≤ m → m ≤ i → d₁ m ≤ m) (h₂ : ∀ m, 1 ≤ m → m ≤ i → d₂ m ≤ m)
    (heq : shuffleLoop d₁ i a = shuffleLoop d₂ i a) :
    ∀ m, 1 ≤ m → m ≤ i → d₁ m = d₂ m := by
  induction i generalizing a with
  | zero => intro m h1 h2; omega
  | succ i ih =>
    have hj₁ : d₁ (i + 1) ≤ i + 1 := h₁ (i + 1) (by omega) (by omega)
    have hj₂ : d₂ (i + 1) ≤ i + 1 := h₂ (i + 1) (by omega) (by omega)
    have hpos : a[d₁ (i + 1)]? = a[d₂ (i + 1)]? := by
      rw [← shuffleLoop_getElem?_self d₁ i a hi h₁, ← shuffleLoop_getElem?_self d₂ i a hi h₂,
        heq]
    have htop : d₁ (i + 1) = d₂ (i + 1) := by
      rw [List.getElem?_eq_getElem (show d₁ (i + 1) < a.length by omega),
        List.getElem?_eq_getElem (show d₂ (i + 1) < a.length by omega)] at hpos
      exact (List.Nodup.getElem_inj_iff hnd).1 (Option.some.inj hpos)
    have hrest : shuffleLoop d₁ i (swap a (i + 1) (d₁ (i + 1)))
        = shuffleLoop d₂ i (swap a (i + 1) (d₁ (i + 1))) := by
      have := heq
      simp only [shuffleLoop] at this
      rw [← htop] at this
      exact this
    have hrec := ih (swap a (i + 1) (d₁ (i + 1)))
      ((swap_perm a _ _).nodup_iff.2 hnd) (by rw [swap_length]; omega)
      (fun m h1 h2 => h₁ m h1 (by omega)) (fun m h1 h2 => h₂ m h1 (by omega)) hrest
    intro m h1 h2
    by_cases hm : m = i + 1
    · rw [hm]; exact htop
    · exact hrec m h1 (by omega)

/-- Every rearrangement that agrees with the array above the loop variable is reached
by some in-range draw sequence. -/
theorem shuffleLoop_reaches {α : Type} (i : Nat) (a b : List α)
    (hnd : a.Nodup) (hi : i < a.length) (hp : b.Perm a)
    (hab : ∀ k, i < k → b[k]? = a[k]?) :
    ∃ draw : Nat → Nat, (∀ m, 1 ≤ m → m ≤ i → draw m ≤ m) ∧ shuffleLoop draw i a = b := by
  induction i generalizing a with
  | zero =>
    exact ⟨fun _ => 0, fun m h1 h2 => by omega, (eq_of_perm_of_tail_agree a b hp hab).symm⟩
  | succ i ih =>
    have hlen : b.length = a.length := hp.length_eq
    have hbi : i + 1 < b.length := by omega
    have hmem : b[i + 1] ∈ a := hp.subset (List.getElem_mem hbi)
    obtain ⟨j, hj, hjx⟩ := List.getElem_of_mem hmem
    have hbnd : b.Nodup := hp.nodup_iff.2 hnd
    have hjle : j ≤ i + 1 := by
      by_contra hcon
      have h1 : b[j]? = a[j]? := hab j (by omega)
      rw [List.getElem?_eq_getElem (show j < b.length by omega),
        List.getElem?_eq_getElem hj, hjx] at h1
      have := (List.Nodup.getElem_inj_iff hbnd).1 (Option.some.inj h1)
      omega
    have hagree : ∀ k, i < k → b[k]? = (swap a (i + 1) j)[k]? := by
      intro k hk
      rw [getElem?_swap a hi hj k]
      by_cases hkj : k = j
      · have hji : j = i + 1 := by omega
        subst hkj
        rw [if_pos rfl, List.getElem?_eq_getElem hi, List.getElem?_eq_getElem (by omega)]
        simp only [hji] at hjx ⊢
        rw [hjx]
      · by_cases hki : k = i + 1
        · subst hki
          rw [if_neg hkj, if_pos rfl, List.getElem?_eq_getElem hj, List.getElem?_eq_getElem hbi,
            hjx]
        · rw [if_neg hkj, if_neg hki]
          exact hab k (by omega)
    obtain ⟨draw, hdraw, hres⟩ := ih (swap a (i + 1) j)
      ((swap_perm a _ _).nodup_iff.2 hnd) (by rw [swap_length]; omega)
      (hp.trans (swap_perm a _ _).symm) hagree
    refine ⟨fun m => if m = i + 1 then j else draw m, ?_, ?_⟩
    · intro m h1 h2
      by_cases hm : m = i + 1
      · simp only [hm, if_true]; exact hjle
      · simp only [hm, if_false]; exact hdraw m h1 (by omega)
    · simp only [shuffleLoop, if_true]
      rw [shuffleLoop_congr _ draw i _ (fun m h1 h2 => by simp [show m ≠ i + 1 by omega])]
      exact hres

theorem slice_chunks_flatten {α : Type} (l : List α) (k m : Nat) :
    ((List.range m).map fun i => slice l (i * k) ((i + 1) * k)).flatten = l.take (m * k) := by
  induction m with
  | zero => simp
  | succ m ih =>
    rw [List.range_succ, List.map_append, List.flatten_append, ih]
    simp only [List.map_cons, List.map_nil, List.flatten_cons, List.flatten_nil,
      List.append_nil, slice]
    have h : l.take (m * k) = (l.take ((m + 1) * k)).take (m * k) := by
      rw [List.take_take, Nat.min_eq_left (Nat.mul_le_mul_right k (Nat.le_succ m))]
    rw [h, List.take_append_drop]

theorem le_mul_variantSize (len n : Nat) (hn : 1 ≤ n) : len ≤ n * variantSize len n := by
  unfold variantSize
  have h := Nat.div_add_mod (len + n - 1) n
  have h2 := Nat.mod_lt (len + n - 1) (show n > 0 by omega)
  omega

theorem variants_flatten {α : Type} (l : List α) (n : Nat) (hn : 1 ≤ n) :
    (variants l n).flatten = l := by
  unfold variants
  rw [slice_chunks_flatten]
  exact List.take_of_length_le (le_mul_variantSize l.length n hn)

theorem shuffleOptionsFrom_length (draws : Nat → Nat → Nat) (k : Nat) (qs : List Question) :
    (shuffleOptionsFrom draws k qs).length = qs.length := by
  induction qs generalizing k with
  | nil => rfl
  | cons q rest ih => simp [shuffleOptionsFrom, ih]

theorem shuffleOptionsFrom_getElem? (draws : Nat → Nat → Nat) (k : Nat) (qs : List Question)
    (m : Nat) :
    (shuffleOptionsFrom draws k qs)[m]? =
      qs[m]?.map fun q => { q with options := shuffleArray (draws (k + m)) q.options } := by
  induction qs generalizing k m with
  | nil => simp [shuffleOptionsFrom]
  | cons q rest ih =>
    cases m with
    | zero => simp [shuffleOptionsFrom]
    | succ m =>
      simp only [shuffleOptionsFrom, List.getElem?_cons_succ]
      rw [ih (k + 1) m]
      rw [show k + 1 + m = k + (m + 1) by omega]

/-! ## Lemmas on the layout -/

theorem lines_eq {R : Type} (s : Layout R) : s.lines = allLines s.done ++ s.page.lines := by
  simp [Layout.lines, allLines]

theorem lines_drawText {R : Type} (s : Layout R) (text : String) (x y : R) (size : Nat) :
    (s.drawText text x y size).lines
      = s.lines ++ [{ x := x, y := y, text := text, size := size }] := by
  simp [lines_eq, Layout.drawText]

theorem lines_pageBreak {R : Type} (s : Layout R) (y : R) :
    ({ done := s.done ++ [s.page], page := newPage, y := y } : Layout R).lines = s.lines := by
  simp [lines_eq, allLines, newPage]

theorem not_question_of_option {R : Type} [LinearOrderedCommRing R] (d : Draw R)
    (h : isOptionLine d) : ¬ isQuestionLine d := by
  intro hq
  have h1 : d.x = pageMargin + 20 := h.1
  have h2 : d.x = pageMargin := hq.1
  rw [h2] at h1
  have h3 : (0 : R) < 20 := by norm_num
  have h4 : (pageMargin : R) < pageMargin + 20 := lt_add_of_pos_right _ h3
  rw [← h1] at h4
  exact lt_irrefl _ h4

theorem checkedQuestions_append {R : Type} [LinearOrderedCommRing R] (L : List (Draw R))
    (d : Draw R) (hL : CheckedQuestions L)
    (hd : ∀ t, L.getLast? = some t → isQuestionLine d → ¬ isTitleLine t →
      pageMargin + 40 ≤ d.y) :
    CheckedQuestions (L ++ [d]) := by
  intro k t e hk hk1 hq ht
  by_cases hlt : k + 1 < L.length
  · rw [List.getElem?_append_left (by omega)] at hk
    rw [List.getElem?_append_left hlt] at hk1
    exact hL k t e hk hk1 hq ht
  · by_cases heq : k + 1 = L.length
    · rw [List.getElem?_append_left (by omega)] at hk
      rw [List.getElem?_append_right (by omega), heq] at hk1
      simp at hk1
      subst hk1
      refine hd t ?_ hq ht
      rw [List.getLast?_eq_getElem?, ← heq]
      simpa using hk
    · have hlen : (L ++ [d]).length ≤ k + 1 := by simp; omega
      rw [List.getElem?_eq_none hlen] at hk1
      exact absurd hk1 (by simp)

theorem placed_option {R : Type} [LinearOrderedCommRing R] (b : Prop) (L : List (Draw R))
    (d : Draw R) (hL : Placed b L) (hd : isOptionLine d) : Placed b (L ++ [d]) := by
  refine ⟨?_, ?_, ?_⟩
  · intro e he hh
    rcases List.mem_append.1 he with h | h
    · exact hL.header e h hh
    · rw [List.mem_singleton.1 h] at hh
      have h1 := hd.2
      have h2 := hh.2
      omega
  · exact checkedQuestions_append L d hL.question
      fun t _ hq _ => absurd hq (not_question_of_option d hd)
  · intro hb e he hh
    rcases List.mem_append.1 he with h | h
    · exact hL.title hb e h hh
    · rw [List.mem_singleton.1 h] at hh
      have h1 := hd.2
      have h2 := hh.2
      omega

theorem placed_question {R : Type} [LinearOrderedCommRing R] (b : Prop) (L : List (Draw R))
    (d : Draw R) (hL : Placed b L) (hd : isQuestionLine d)
    (hy : ∀ t, L.getLast? = some t → ¬ isTitleLine t → pageMargin + 40 ≤ d.y) :
    Placed b (L ++ [d]) := by
  refine ⟨?_, ?_, ?_⟩
  · intro e he hh
    rcases List.mem_append.1 he with h | h
    · exact hL.header e h hh
    · rw [List.mem_singleton.1 h] at hh
      have h1 := hd.2
      have h2 := hh.2
      omega
  · exact checkedQuestions_append L d hL.question fun t ht _ hnt => hy t ht hnt
  · intro hb e he hh
    rcases List.mem_append.1 he with h | h
    · exact hL.title hb e h hh
    · rw [List.mem_singleton.1 h] at hh
      have h1 := hd.2
      have h2 := hh.2
      omega

theorem placed_title {R : Type} [LinearOrderedCommRing R] (b : Prop) (L : List (Draw R))
    (d : Draw R) (hL : Placed b L) (hd : isTitleLine d) (hy : b → pageMargin ≤ d.y) :
    Placed b (L ++ [d]) := by
  refine ⟨?_, ?_, ?_⟩
  · intro e he hh
    rcases List.mem_append.1 he with h | h
    · exact hL.header e h hh
    · rw [List.mem_singleton.1 h] at hh
      have h1 := hd.2
      have h2 := hh.2
      omega
  · refine checkedQuestions_append L d hL.question fun t _ hq _ => ?_
    have h1 := hd.2
    have h2 := hq.2
    omega
  · intro hb e he hh
    rcases List.mem_append.1 he with h | h
    · exact hL.title hb e h hh
    · rw [List.mem_singleton.1 h]
      exact hy hb

theorem drawOptions_placed {R : Type} [LinearOrderedCommRing R] (b : Prop) (h : R)
    (options : List String) (optIdx : Nat) (s : Layout R) (hs : Placed b s.lines) :
    Placed b (drawOptions h options optIdx s).lines := by
  induction options generalizing optIdx s with
  | nil => exact hs
  | cons option rest ih =>
    simp only [drawOptions]
    apply ih
    show Placed b (s.drawText _ _ _ _).lines
    rw [lines_drawText]
    exact placed_option b _ _ hs ⟨rfl, rfl⟩

theorem drawQuestion_y {R : Type} [LinearOrderedCommRing R] (h : R) (q : Question) (idx : Nat)
    (s : Layout R) : pageMargin + 40 ≤ (drawQuestion h q idx s).y := by
  simp only [drawQuestion]
  split
  · show (pageMargin : R) + 40 ≤ height - pageMargin
    simp only [pageMargin, height]
    norm_num
  · rename_i hlt
    exact not_lt.1 hlt

theorem drawQuestion_placed {R : Type} [LinearOrderedCommRing R] (b : Prop) (h : R)
    (q : Question) (idx : Nat) (s : Layout R) (hs : Placed b s.lines)
    (hy : ∀ t, s.lines.getLast? = some t → ¬ isTitleLine t → pageMargin + 40 ≤ s.y) :
    Placed b (drawQuestion h q idx s).lines := by
  have key : Placed b (drawOptions h q.options 0
      { s.drawText (toString (idx + 1) ++ ". " ++ q.text) pageMargin s.y 12 with
        y := s.y - (h + 10) }).lines := by
    apply drawOptions_placed
    show Placed b (s.drawText _ _ _ _).lines
    rw [lines_drawText]
    exact placed_question b _ _ hs ⟨rfl, rfl⟩ hy
  simp only [drawQuestion]
  split
  · rw [lines_pageBreak]
    exact key
  · exact key

theorem drawQuestions_placed {R : Type} [LinearOrderedCommRing R] (b : Prop) (h : R)
    (questions : List Question) (idx : Nat) (s : Layout R) (hs : Placed b s.lines)
    (hy : ∀ t, s.lines.getLast? = some t → ¬ isTitleLine t → pageMargin + 40 ≤ s.y) :
    Placed b (drawQuestions h questions idx s).lines ∧
      (questions ≠ [] → pageMargin + 40 ≤ (drawQuestions h questions idx s).y) := by
  induction questions generalizing idx s with
  | nil => exact ⟨hs, fun hne => absurd rfl hne⟩
  | cons q rest ih =>
    simp only [drawQuestions]
    have hq := drawQuestion_placed b h q idx s hs hy
    have hqy := drawQuestion_y h q idx s
    obtain ⟨h1, h2⟩ := ih (idx + 1) (drawQuestion h q idx s) hq (fun _ _ _ => hqy)
    refine ⟨h1, fun _ => ?_⟩
    cases rest with
    | nil => exact hqy
    | cons r rest2 => exact h2 (by simp)

theorem drawVariant_placed {R : Type} [LinearOrderedCommRing R] (b : Prop) (h : R)
    (questions : List Question) (i : Nat) (s : Layout R) (hb : b → questions ≠ [])
    (hs : Placed b s.lines) (hy : b → pageMargin ≤ s.y) :
    Placed b (drawVariant h questions i s).lines ∧
      (b → pageMargin ≤ (drawVariant h questions i s).y) := by
  have ht : Placed b (s.drawText ("Variant " ++ toString (i + 1)) pageMargin s.y 18).lines := by
    rw [lines_drawText]
    exact placed_title b _ _ hs ⟨rfl, rfl⟩ hy
  obtain ⟨h1, h2⟩ := drawQuestions_placed b h questions 0
    { s.drawText ("Variant " ++ toString (i + 1)) pageMargin s.y 18 with y := s.y - 30 } ht
    (by
      intro t hlast hnt
      change (s.drawText _ _ _ _).lines.getLast? = some t at hlast
      rw [lines_drawText, List.getLast?_concat] at hlast
      have : isTitleLine t := by
        rw [← Option.some.inj hlast]
        exact ⟨rfl, rfl⟩
      exact absurd this hnt)
  refine ⟨h1, fun hbb => ?_⟩
  have h3 := h2 (hb hbb)
  exact le_sub_iff_add_le.2 h3

theorem drawVariants_placed {R : Type} [LinearOrderedCommRing R] (b : Prop) (h : R)
    (questions : List Question) (count i : Nat) (s : Layout R) (hb : b → questions ≠ [])
    (hs : Placed b s.lines) (hy : b → pageMargin ≤ s.y) :
    Placed b (drawVariants h questions count i s).lines := by
  induction count generalizing i s with
  | zero => exact hs
  | succ count ih =>
    simp only [drawVariants]
    obtain ⟨h1, h2⟩ := drawVariant_placed b h questions i s hb hs hy
    exact ih (i + 1) _ h1 h2

theorem drawHeader_placed {R : Type} [LinearOrderedCommRing R] (b : Prop) (header : Header) :
    Placed b (drawHeader header : Layout R).lines ∧
      (pageMargin : R) ≤ (drawHeader header : Layout R).y := by
  have hl : (drawHeader header : Layout R).lines =
      [{ x := 400, y := height - pageMargin, text := "Subject: " ++ header.subject, size := 14 },
       { x := 400, y := height - pageMargin - 20, text := "Grade: " ++ header.grade, size := 14 },
       { x := 400, y := height - pageMargin - 40, text := "Date: " ++ header.date, size := 14 }] := by
    simp [drawHeader, lines_eq, Layout.drawText, allLines, newPage]
  refine ⟨⟨?_, ?_, ?_⟩, ?_⟩
  · intro d hd _
    rw [hl] at hd
    simp only [List.mem_cons, List.mem_singleton, List.mem_nil_iff, or_false] at hd
    rcases hd with rfl | rfl | rfl <;> simp only [pageMargin, height] <;> norm_num
  · intro k t d _ hk1 hq _
    rw [hl] at hk1
    have hsz : d.size = 14 := by
      match k, hk1 with
      | 0, hk1 => simp at hk1; rw [← hk1]
      | 1, hk1 => simp at hk1; rw [← hk1]
      | k + 2, hk1 => simp at hk1
    have := hq.2
    omega
  · intro _ d hd ht
    rw [hl] at hd
    have hsz : d.size = 14 := by
      simp only [List.mem_cons, List.mem_singleton, List.mem_nil_iff, or_false] at hd
      rcases hd with rfl | rfl | rfl <;> rfl
    have := ht.2
    omega
  · show (pageMargin : R) ≤ height - pageMargin - 80
    simp only [pageMargin, height]
    norm_num

theorem generatePDF_placed {R : Type} [LinearOrderedCommRing R] (header : Header)
    (questions : List Question) (numVariants : Int) (h : R) :
    Placed (questions ≠ []) (allLines (generatePDF header questions numVariants h)) := by
  obtain ⟨h1, h2⟩ := drawHeader_placed (R := R) (questions ≠ []) header
  exact drawVariants_placed (questions ≠ []) h questions numVariants.toNat 0 _ (fun hb => hb) h1
    (fun _ => h2)

theorem questionLineCount_append {R : Type} [LinearOrderedCommRing R] (L : List (Draw R))
    (d : Draw R) :
    questionLineCount (L ++ [d]) = questionLineCount L + if isQuestionLine d then 1 else 0 := by
  by_cases hd : isQuestionLine d <;> simp [questionLineCount, List.countP_cons, hd]

theorem drawOptions_questionLineCount {R : Type} [LinearOrderedCommRing R] (h : R)
    (options : List String) (optIdx : Nat) (s : Layout R) :
    questionLineCount (drawOptions h options optIdx s).lines = questionLineCount s.lines := by
  induction options generalizing optIdx s with
  | nil => rfl
  | cons option rest ih =>
    simp only [drawOptions]
    rw [ih]
    show questionLineCount (s.drawText _ _ _ _).lines = _
    rw [lines_drawText, questionLineCount_append,
      if_neg (not_question_of_option _ ⟨rfl, rfl⟩), Nat.add_zero]

theorem drawQuestion_questionLineCount {R : Type} [LinearOrderedCommRing R] (h : R)
    (q : Question) (idx : Nat) (s : Layout R) :
    questionLineCount (drawQuestion h q idx s).lines = questionLineCount s.lines + 1 := by
  have key : questionLineCount (drawOptions h q.options 0
      { s.drawText (toString (idx + 1) ++ ". " ++ q.text) pageMargin s.y 12 with
        y := s.y - (h + 10) }).lines = questionLineCount s.lines + 1 := by
    rw [drawOptions_questionLineCount]
    show questionLineCount (s.drawText _ _ _ _).lines = _
    rw [lines_drawText, questionLineCount_append, if_pos ⟨rfl, rfl⟩]
  simp only [drawQuestion]
  split
  · rw [lines_pageBreak]
    exact key
  · exact key

theorem drawQuestions_questionLineCount {R : Type} [LinearOrderedCommRing R] (h : R)
    (questions : List Question) (idx : Nat) (s : Layout R) :
    questionLineCount (drawQuestions h questions idx s).lines
      = questionLineCount s.lines + questions.length := by
  induction questions generalizing idx s with
  | nil => rfl
  | cons q rest ih =>
    simp only [drawQuestions, List.length_cons]
    rw [ih, drawQuestion_questionLineCount]
    omega

theorem drawVariant_questionLineCount {R : Type} [LinearOrderedCommRing R] (h : R)
    (questions : List Question) (i : Nat) (s : Layout R) :
    questionLineCount (drawVariant h questions i s).lines
      = questionLineCount s.lines + questions.length := by
  show questionLineCount (drawQuestions h questions 0 _).lines = _
  rw [drawQuestions_questionLineCount]
  show questionLineCount (s.drawText _ _ _ _).lines + _ = _
  rw [lines_drawText, questionLineCount_append, if_neg, Nat.add_zero]
  intro hq
  have := hq.2
  simp at this

theorem drawVariants_questionLineCount {R : Type} [LinearOrderedCommRing R] (h : R)
    (questions : List Question) (count i : Nat) (s : Layout R) :
    questionLineCount (drawVariants h questions count i s).lines
      = questionLineCount s.lines + count * questions.length := by
  induction count generalizing i s with
  | zero => simp [drawVariants]
  | succ count ih =>
    simp only [drawVariants]
    rw [ih, drawVariant_questionLineCount, Nat.succ_mul]
    omega

/-- Every variant draws the whole question list: a document of `n` variants holds
`n * questions.length` question lines. -/
theorem generatePDF_questionLineCount {R : Type} [LinearOrderedCommRing R] (header : Header)
    (questions : List Question) (numVariants : Int) (h : R) :
    questionLineCount (allLines (generatePDF header questions numVariants h))
      = numVariants.toNat * questions.length := by
  show questionLineCount (drawVariants h questions numVariants.toNat 0 (drawHeader header)).lines
    = _
  rw [drawVariants_questionLineCount]
  have : questionLineCount (drawHeader header : Layout R).lines = 0 := by
    simp [drawHeader, lines_eq, Layout.drawText, allLines, newPage, questionLineCount,
      isQuestionLine, List.countP_cons]
  rw [this, Nat.zero_add]

theorem label_eq (k : Nat) : label k = some (Char.ofNat (65 + k % 26)) := by
  have hk : k % 26 < 26 := Nat.mod_lt _ (by decide)
  unfold label
  generalize k % 26 = m at hk
  interval_cases m <;> rfl

theorem drawOptions_texts {R : Type} [LinearOrderedCommRing R] (h : R) (options : List String)
    (optIdx : Nat) (s : Layout R) :
    (drawOptions h options optIdx s).lines.map (fun d => d.text)
      = s.lines.map (fun d => d.text)
        ++ (options.enumFrom optIdx).map fun p => optionText p.1 p.2 := by
  induction options generalizing optIdx s with
  | nil => simp [drawOptions]
  | cons option rest ih =>
    simp only [drawOptions]
    rw [ih]
    have : ({ s.drawText (optionText optIdx option) (pageMargin + 20) s.y 12 with
        y := s.y - (h + 5) } : Layout R).lines
        = (s.drawText (optionText optIdx option) (pageMargin + 20) s.y 12).lines := rfl
    rw [this, lines_drawText]
    simp [List.enumFrom_cons]

theorem variantSize_ceil (len n : Nat) (hn : 1 ≤ n) :
    len ≤ n * variantSize len n ∧ (0 < variantSize len n → n * (variantSize len n - 1) < len) := by
  refine ⟨le_mul_variantSize len n hn, fun hpos => ?_⟩
  unfold variantSize at *
  have h := Nat.div_mul_le_self (len + n - 1) n
  have h3 : n * ((len + n - 1) / n - 1) = n * ((len + n - 1) / n) - n := by
    rw [Nat.mul_sub, Nat.mul_one]
  rw [h3]
  have h4 : n * ((len + n - 1) / n) ≤ len + n - 1 := by rw [Nat.mul_comm]; exact h
  have h5 : n ≤ n * ((len + n - 1) / n) := Nat.le_mul_of_pos_right n hpos
  omega


/-! ## Lemmas on the question store -/

theorem mem_variants_flatten {α : Type} (l : List α) (n : Nat) (x : α)
    (hx : x ∈ (variants l n).flatten) : x ∈ l := by
  unfold variants at hx
  rw [slice_chunks_flatten] at hx
  exact List.mem_of_mem_take hx

theorem mem_shuffleOptionsFrom (draws : Nat → Nat → Nat) (k : Nat) (qs : List Question)
    (r : Question) (hr : r ∈ shuffleOptionsFrom draws k qs) :
    ∃ q ∈ qs, ∃ m, r = { q with options := shuffleArray (draws m) q.options } := by
  induction qs generalizing k with
  | nil => simp [shuffleOptionsFrom] at hr
  | cons q rest ih =>
    simp only [shuffleOptionsFrom, List.mem_cons] at hr
    rcases hr with h | h
    · exact ⟨q, List.mem_cons_self _ _, k, h⟩
    · obtain ⟨q', hq', m, hm⟩ := ih (k + 1) h
      exact ⟨q', List.mem_cons_of_mem _ hq', m, hm⟩

theorem mem_of_getElem?_eq_some {α : Type} (l : List α) (i : Nat) (a : α)
    (h : l[i]? = some a) : a ∈ l := by
  obtain ⟨hi, heq⟩ := List.getElem?_eq_some.1 h
  rw [← heq]
  exact List.getElem_mem hi

theorem optionRendered_false_of_no_options (qs : List Question)
    (hqs : ∀ q ∈ qs, q.options = []) (questionIndex optionIndex : Nat) :
    optionRendered qs questionIndex optionIndex = false := by
  unfold optionRendered
  cases hq : qs[questionIndex]? with
  | none => rfl
  | some q =>
    have hmem : q ∈ qs := mem_of_getElem?_eq_some _ _ _ hq
    simp [hqs q hmem]

/-- No store operation gives any question an option while `selectedQuestionIndex` is
`null`, and none writes `selectedQuestionIndex`. -/
theorem step_keeps_no_options (s s' : AppState) (e : Event)
    (hsel : s.selectedQuestionIndex = none) (hopt : ∀ q ∈ s.questions, q.options = [])
    (hstep : step s e = some s') :
    s'.selectedQuestionIndex = none ∧ ∀ q ∈ s'.questions, q.options = [] := by
  cases e with
  | addQuestion currentQuestion =>
    simp only [step, Option.some.injEq] at hstep
    subst hstep
    refine ⟨hsel, fun q hq => ?_⟩
    simp only [addQuestion] at hq
    split at hq
    · exact hopt q hq
    · rcases List.mem_append.1 hq with h | h
      · exact hopt q h
      · rw [List.mem_singleton.1 h]
  | addOption currentOption =>
    simp only [step, hsel, addOption, Option.map_some', Option.some.injEq] at hstep
    subst hstep
    exact ⟨rfl, hopt⟩
  | updateQuestion index newText =>
    simp only [step, updateQuestion] at hstep
    cases hq : s.questions[index]? with
    | none => simp [hq] at hstep
    | some question =>
      simp only [hq, Option.map_some', Option.some.injEq] at hstep
      subst hstep
      refine ⟨hsel, fun q hmem => ?_⟩
      rcases List.mem_or_eq_of_mem_set hmem with h | h
      · exact hopt q h
      · rw [h]
        exact hopt question (mem_of_getElem?_eq_some _ _ _ hq)
  | updateOption questionIndex optionIndex newOption =>
    simp [step, optionRendered_false_of_no_options s.questions hopt] at hstep
  | removeOption questionIndex optionIndex =>
    simp [step, optionRendered_false_of_no_options s.questions hopt] at hstep
  | removeQuestion index =>
    simp only [step] at hstep
    split at hstep
    · simp only [Option.some.injEq] at hstep
      subst hstep
      exact ⟨hsel, fun q hq => hopt q (List.mem_of_mem_eraseIdx hq)⟩
    · simp at hstep
  | shuffleQuestions draw numVariants =>
    simp only [step, shuffleQuestions] at hstep
    split at hstep
    · rename_i next hnext
      split at hnext
      · simp at hnext
      · simp only [Except.ok.injEq] at hnext
        simp only [Option.some.injEq] at hstep
        subst hstep
        subst hnext
        refine ⟨hsel, fun q hq => ?_⟩
        exact hopt q ((shuffleArray_perm draw s.questions).subset
          (mem_variants_flatten _ _ q hq))
    · simp at hstep
  | shuffleOptions draws =>
    simp only [step, Option.some.injEq] at hstep
    subst hstep
    refine ⟨hsel, fun r hr => ?_⟩
    obtain ⟨q, hq, m, hm⟩ := mem_shuffleOptionsFrom draws 0 s.questions r hr
    rw [hm]
    show shuffleArray (draws m) q.options = []
    rw [hopt q hq]
    rfl

theorem run_keeps_no_options (events : List Event) (s s' : AppState)
    (hsel : s.selectedQuestionIndex = none) (hopt : ∀ q ∈ s.questions, q.options = [])
    (hrun : run events s = some s') :
    s'.selectedQuestionIndex = none ∧ ∀ q ∈ s'.questions, q.options = [] := by
  induction events generalizing s with
  | nil =>
    simp only [run, Option.some.injEq] at hrun
    subst hrun
    exact ⟨hsel, hopt⟩
  | cons e rest ih =>
    simp only [run] at hrun
    cases hs : step s e with
    | none => simp [hs] at hrun
    | some t =>
      rw [hs] at hrun
      obtain ⟨h1, h2⟩ := step_keeps_no_options s t e hsel hopt hs
      exact ih t h1 h2 hrun

/-! ## Lemmas on the option lines of the layout -/

theorem not_option_of_question {R : Type} [LinearOrderedCommRing R] (d : Draw R)
    (h : isQuestionLine d) : ¬ isOptionLine d :=
  fun ho => not_question_of_option d ho h

theorem optionLineTexts_append {R : Type} [LinearOrderedCommRing R] (L : List (Draw R))
    (d : Draw R) :
    optionLineTexts (L ++ [d]) = optionLineTexts L ++ if isOptionLine d then [d.text] else [] := by
  by_cases hd : isOptionLine d <;> simp [optionLineTexts, List.filter_cons, hd]

theorem drawOptions_optionLineTexts {R : Type} [LinearOrderedCommRing R] (h : R)
    (options : List String) (optIdx : Nat) (s : Layout R) :
    optionLineTexts (drawOptions h options optIdx s).lines
      = optionLineTexts s.lines ++ (options.enumFrom optIdx).map fun p => optionText p.1 p.2 := by
  induction options generalizing optIdx s with
  | nil => simp [drawOptions]
  | cons option rest ih =>
    simp only [drawOptions]
    rw [ih]
    have hl : optionLineTexts ({ s.drawText (optionText optIdx option) (pageMargin + 20) s.y 12
        with y := s.y - (h + 5) } : Layout R).lines
        = optionLineTexts s.lines ++ [optionText optIdx option] := by
      show optionLineTexts (s.drawText _ _ _ _).lines = _
      rw [lines_drawText, optionLineTexts_append, if_pos ⟨rfl, rfl⟩]
    rw [hl]
    simp [List.enumFrom_cons]

theorem drawQuestion_optionLineTexts {R : Type} [LinearOrderedCommRing R] (h : R)
    (q : Question) (idx : Nat) (s : Layout R) :
    optionLineTexts (drawQuestion h q idx s).lines
      = optionLineTexts s.lines ++ (q.options.enumFrom 0).map fun p => optionText p.1 p.2 := by
  have key : optionLineTexts (drawOptions h q.options 0
      { s.drawText (toString (idx + 1) ++ ". " ++ q.text) pageMargin s.y 12 with
        y := s.y - (h + 10) }).lines
      = optionLineTexts s.lines ++ (q.options.enumFrom 0).map fun p => optionText p.1 p.2 := by
    rw [drawOptions_optionLineTexts]
    have hl : optionLineTexts ({ s.drawText (toString (idx + 1) ++ ". " ++ q.text) pageMargin
        s.y 12 with y := s.y - (h + 10) } : Layout R).lines = optionLineTexts s.lines := by
      show optionLineTexts (s.drawText _ _ _ _).lines = _
      rw [lines_drawText, optionLineTexts_append,
        if_neg (not_option_of_question _ ⟨rfl, rfl⟩), List.append_nil]
    rw [hl]
  simp only [drawQuestion]
  split
  · rw [lines_pageBreak]
    exact key
  · exact key

theorem drawQuestions_optionLineTexts {R : Type} [LinearOrderedCommRing R] (h : R)
    (questions : List Question) (idx : Nat) (s : Layout R) :
    optionLineTexts (drawQuestions h questions idx s).lines
      = optionLineTexts s.lines
        ++ (questions.map fun q =>
            (q.options.enumFrom 0).map fun p => optionText p.1 p.2).flatten := by
  induction questions generalizing idx s with
  | nil => simp [drawQuestions]
  | cons q rest ih =>
    simp only [drawQuestions]
    rw [ih, drawQuestion_optionLineTexts]
    simp

theorem drawVariant_optionLineTexts {R : Type} [LinearOrderedCommRing R] (h : R)
    (questions : List Question) (i : Nat) (s : Layout R) :
    optionLineTexts (drawVariant h questions i s).lines
      = optionLineTexts s.lines
        ++ (questions.map fun q =>
            (q.options.enumFrom 0).map fun p => optionText p.1 p.2).flatten := by
  show optionLineTexts (drawQuestions h questions 0 _).lines = _
  rw [drawQuestions_optionLineTexts]
  have hl : optionLineTexts ({ s.drawText ("Variant " ++ toString (i + 1)) pageMargin s.y 18
      with y := s.y - 30 } : Layout R).lines = optionLineTexts s.lines := by
    show optionLineTexts (s.drawText _ _ _ _).lines = _
    rw [lines_drawText, optionLineTexts_append, if_neg, List.append_nil]
    intro ho
    have := ho.2
    simp at this
  exact congrArg (fun t => t ++ _) hl

theorem drawVariants_optionLineTexts {R : Type} [LinearOrderedCommRing R] (h : R)
    (questions : List Question) (count i : Nat) (s : Layout R) :
    optionLineTexts (drawVariants h questions count i s).lines
      = optionLineTexts s.lines
        ++ (List.replicate count (questions.map fun q =>
            (q.options.enumFrom 0).map fun p => optionText p.1 p.2).flatten).flatten := by
  induction count generalizing i s with
  | zero => simp [drawVariants]
  | succ count ih =>
    simp only [drawVariants]
    rw [ih, drawVariant_optionLineTexts, List.replicate_succ]
    simp

theorem generatePDF_optionLineTexts {R : Type} [LinearOrderedCommRing R] (header : Header)
    (questions : List Question) (numVariants : Int) (h : R) :
    optionLineTexts (allLines (generatePDF header questions numVariants h))
      = (List.replicate numVariants.toNat (questions.map fun q =>
            (q.options.enumFrom 0).map fun p => optionText p.1 p.2).flatten).flatten := by
  show optionLineTexts (drawVariants h questions numVariants.toNat 0 (drawHeader header)).lines
    = _
  rw [drawVariants_optionLineTexts]
  have : optionLineTexts (drawHeader header : Layout R).lines = [] := by
    simp [drawHeader, lines_eq, Layout.drawText, allLines, newPage, optionLineTexts,
      isOptionLine, List.filter_cons]
  rw [this, List.nil_append]

/-! ## The claims -/

/-- C1 (evaluation at the failing input). In the document `generatePDF` builds for three
questions with 2, 0 and 3 options and two variants, each of the two variants draws all
three questions: six numbered question lines are drawn, not three, and every question
appears once in each variant. -/
theorem generatePDF_draws_every_question_in_each_variant :
    ((allLines (generatePDF (R := Int) ⟨"Math", "5", "2024-01-01"⟩
        [⟨"q1", ["a", "b"]⟩, ⟨"q2", []⟩, ⟨"q3", ["a", "b", "c"]⟩] 2 14)).filter
          fun d => decide (isQuestionLine d)).map (fun d => d.text)
      = ["1. q1", "2. q2", "3. q3", "1. q1", "2. q2", "3. q3"] := by
  decide

/-- C2 (counterexample). With `numVariants = 4294967296` the call `Array(numVariants)`
throws a `RangeError`: no chunk is computed and no question list is stored. -/
theorem shuffleQuestions_throws_at_array_limit :
    (1 : Int) ≤ 4294967296 ∧
    shuffleQuestions (fun _ => 0) [⟨"q1", []⟩, ⟨"q2", []⟩, ⟨"q3", []⟩] 4294967296
      = .error "RangeError: Invalid array length" ∧
    shuffleQuestions (fun _ => 0) [⟨"q1", []⟩, ⟨"q2", []⟩, ⟨"q3", []⟩] 4294967296
      ≠ .ok (shuffleArray (fun _ => 0) [⟨"q1", []⟩, ⟨"q2", []⟩, ⟨"q3", []⟩]) := by
  refine ⟨by decide, rfl, ?_⟩
  intro h
  have e : shuffleQuestions (fun _ => 0) [⟨"q1", []⟩, ⟨"q2", []⟩, ⟨"q3", []⟩] 4294967296
      = .error "RangeError: Invalid array length" := rfl
  rw [e] at h
  cases h

/-- C2 (amended). For every question list `S`, every draw oracle and every integer `n`
with `1 ≤ n < 2^32` (the array lengths `Array(n)` accepts), the `n` chunks
`shuffled.slice(i * k, (i + 1) * k)` with `k = ceil(len / n)` computed by
`shuffleQuestions` concatenate to exactly `shuffleArray(S)`, and that sequence is the
question list stored afterwards. -/
theorem shuffleQuestions_chunks_concat (draw : Nat → Nat) (S : List Question) (n : Int)
    (hn : 1 ≤ n) (hlim : n < 4294967296) :
    (variants (shuffleArray draw S) n.toNat).length = n.toNat ∧
    (∀ i, i < n.toNat → (variants (shuffleArray draw S) n.toNat)[i]? =
      some (slice (shuffleArray draw S) (i * variantSize S.length n.toNat)
        ((i + 1) * variantSize S.length n.toNat))) ∧
    (variants (shuffleArray draw S) n.toNat).flatten = shuffleArray draw S ∧
    shuffleQuestions draw S n = .ok (shuffleArray draw S) := by
  have hn1 : 1 ≤ n.toNat := by omega
  refine ⟨by simp [variants], ?_, variants_flatten _ _ hn1, ?_⟩
  · intro i hi
    simp [variants, hi, shuffleArray_length]
  · have hneg : ¬ (n < 0 ∨ 4294967296 ≤ n) := by omega
    simp only [shuffleQuestions, hneg, if_false]
    rw [variants_flatten _ _ hn1]

theorem shuffleQuestions_chunks_concat_witness :
    (1 : Int) ≤ 2 ∧ (2 : Int) < 4294967296 ∧
    (variants (shuffleArray (fun _ => 0) [(⟨"q1", []⟩ : Question), ⟨"q2", []⟩, ⟨"q3", []⟩])
      (2 : Int).toNat).flatten = [⟨"q2", []⟩, ⟨"q3", []⟩, ⟨"q1", []⟩] ∧
    shuffleQuestions (fun _ => 0) [⟨"q1", []⟩, ⟨"q2", []⟩, ⟨"q3", []⟩] 2
      = .ok (shuffleArray (fun _ => 0) [⟨"q1", []⟩, ⟨"q2", []⟩, ⟨"q3", []⟩]) :=
  ⟨by decide, by decide,
    (shuffleQuestions_chunks_concat (fun _ => 0) [⟨"q1", []⟩, ⟨"q2", []⟩, ⟨"q3", []⟩] 2
      (by decide) (by decide)).2.2.1.trans (by decide),
    (shuffleQuestions_chunks_concat (fun _ => 0) [⟨"q1", []⟩, ⟨"q2", []⟩, ⟨"q3", []⟩] 2
      (by decide) (by decide)).2.2.2⟩

/-- C3. For every list `S` of any element type and every draw oracle whose draw at each
loop index `i` lies in `[0, i]`, `shuffleArray S` has the length of `S` and is a
permutation of `S` (the same multiset). -/
theorem shuffleArray_length_and_perm {α : Type} (draw : Nat → Nat) (S : List α)
    (_hd : Admissible S.length draw) :
    (shuffleArray draw S).length = S.length ∧ (shuffleArray draw S).Perm S ∧
      (Multiset.ofList (shuffleArray draw S) = Multiset.ofList S) :=
  ⟨shuffleArray_length draw S, shuffleArray_perm draw S,
    Multiset.coe_eq_coe.2 (shuffleArray_perm draw S)⟩

theorem shuffleArray_length_and_perm_witness :
    Admissible [10, 20, 30, 40].length (fun i => i / 2) ∧
    (shuffleArray (fun i => i / 2) [10, 20, 30, 40]).length = 4 ∧
    (shuffleArray (fun i => i / 2) [10, 20, 30, 40]).Perm [10, 20, 30, 40] :=
  have hadm : Admissible [10, 20, 30, 40].length (fun i => i / 2) :=
    fun i _ _ => Nat.div_le_self i 2
  ⟨hadm, (shuffleArray_length_and_perm (fun i => i / 2) [10, 20, 30, 40] hadm).1,
    (shuffleArray_length_and_perm (fun i => i / 2) [10, 20, 30, 40] hadm).2.1⟩

/-- C4 (evaluation at the failing input). With `numVariants = 0`, `shuffleQuestions`
raises no error: it stores the empty list in place of the question list.  Only a negative
count makes it throw before a list is stored. -/
theorem shuffleQuestions_zero_stores_empty_list :
    shuffleQuestions (fun _ => 0) [⟨"q1", ["a", "b"]⟩, ⟨"q2", []⟩] 0 = .ok [] ∧
    shuffleQuestions (fun _ => 0) [⟨"q1", ["a", "b"]⟩, ⟨"q2", []⟩] (-1)
      = .error "RangeError: Invalid array length" :=
  ⟨rfl, rfl⟩

/-- C5 (counterexample). With an empty question list, ten variants and line height 14,
the tenth variant title is drawn at `y = 40`, below the page margin 50. -/
theorem generatePDF_title_below_margin :
    (1 : Int) ≤ 10 ∧ (0 : Int) ≤ 14 ∧
    ∃ p ∈ generatePDF (R := Int) ⟨"Math", "5", "2024-01-01"⟩ [] 10 14,
      ∃ d ∈ p.lines, isTitleLine d ∧ d.y = 40 ∧ d.y < pageMargin := by
  decide

set_option maxRecDepth 4000 in
/-- An option line can lie below the margin: for one question with 31 options and line
height 14 the last option line is drawn at `y = 46`. -/
theorem generatePDF_option_below_margin :
    ∃ d ∈ allLines (generatePDF (R := Int) ⟨"Math", "5", "2024-01-01"⟩
        [⟨"q", List.replicate 31 "o"⟩] 1 14),
      isOptionLine d ∧ d.y = 46 ∧ d.y < pageMargin := by
  decide

set_option maxRecDepth 4000 in
/-- The first question line of a variant can lie below the margin: for one question with
one option, six variants and line height 14, the sixth variant has its title at `y = 55`
and its question line at `y = 25`. -/
theorem generatePDF_first_question_below_margin :
    ∃ d ∈ allLines (generatePDF (R := Int) ⟨"Math", "5", "2024-01-01"⟩ [⟨"q", ["a"]⟩] 6 14),
      isQuestionLine d ∧ d.y = 25 ∧ d.y < pageMargin := by
  decide

/-- C5 (amended). For every header, question list, variant count and line height, in
the document built by `generatePDF`: every header line lies at `y ≥ pageMargin`; every
question line that does not directly follow a variant title (every question line but
the first of its variant) lies at `y ≥ pageMargin + 40`; and when the question list is
not empty every variant title lies at `y ≥ pageMargin`. -/
theorem generatePDF_placement {R : Type} [LinearOrderedCommRing R] (header : Header)
    (questions : List Question) (numVariants : Int) (h : R) :
    (∀ d ∈ allLines (generatePDF header questions numVariants h),
      isHeaderLine d → pageMargin ≤ d.y) ∧
    (∀ k t d, (allLines (generatePDF header questions numVariants h))[k]? = some t →
      (allLines (generatePDF header questions numVariants h))[k + 1]? = some d →
      isQuestionLine d → ¬ isTitleLine t → pageMargin + 40 ≤ d.y) ∧
    (questions ≠ [] → ∀ d ∈ allLines (generatePDF header questions numVariants h),
      isTitleLine d → pageMargin ≤ d.y) :=
  have hp := generatePDF_placed header questions numVariants h
  ⟨hp.header, hp.question, hp.title⟩

/-- C6. For every question list `Q` and every draw oracle, `shuffleOptions` returns a
list of the length of `Q` whose `k`-th question has the text of the `k`-th question of
`Q` and an option list that is a permutation of that question's options, of the same
length. -/
theorem shuffleOptions_keeps_text_and_option_sets (draws : Nat → Nat → Nat)
    (Q : List Question) :
    (shuffleOptions draws Q).length = Q.length ∧
    ∀ (k : Nat) (q : Question), Q[k]? = some q →
      ∃ q' : Question, (shuffleOptions draws Q)[k]? = some q' ∧ q'.text = q.text ∧
        q'.options.Perm q.options ∧ q'.options.length = q.options.length := by
  refine ⟨shuffleOptionsFrom_length draws 0 Q, fun k q hq => ?_⟩
  refine ⟨{ q with options := shuffleArray (draws k) q.options }, ?_, rfl,
    shuffleArray_perm _ _, shuffleArray_length _ _⟩
  unfold shuffleOptions
  rw [shuffleOptionsFrom_getElem?, hq]
  simp

/-- C7. For a list of pairwise distinct elements, the draw sequences with every draw
`j_i` in `[0, i]` (for the loop indices `i = n - 1, ..., 1`) correspond one to one to
the permutations of the list: every such sequence yields a permutation, every
permutation is yielded by some such sequence, and two such sequences yielding the same
output have the same draw at every loop index. -/
theorem shuffleArray_draws_bijective {α : Type} (l : List α) (hnd : l.Nodup) :
    (∀ draw, Admissible l.length draw → (shuffleArray draw l).Perm l) ∧
    (∀ l' : List α, l'.Perm l → ∃ draw, Admissible l.length draw ∧ shuffleArray draw l = l') ∧
    (∀ d₁ d₂, Admissible l.length d₁ → Admissible l.length d₂ →
      shuffleArray d₁ l = shuffleArray d₂ l → ∀ i, 1 ≤ i → i < l.length → d₁ i = d₂ i) := by
  refine ⟨fun draw _ => shuffleArray_perm draw l, ?_, ?_⟩
  · intro l' hp
    by_cases hlen : l.length = 0
    · have hl : l = [] := List.length_eq_zero.1 hlen
      subst hl
      exact ⟨fun _ => 0, fun i _ hi => absurd hi (by simp),
        by simpa [shuffleArray, shuffleLoop] using hp.eq_nil.symm⟩
    · obtain ⟨draw, hd, hres⟩ := shuffleLoop_reaches (l.length - 1) l l' hnd (by omega) hp
        (fun k hk => by
          have hl := hp.length_eq
          rw [List.getElem?_eq_none (by omega), List.getElem?_eq_none (by omega)])
      exact ⟨draw, fun i h1 h2 => hd i h1 (by omega), hres⟩
  · intro d₁ d₂ h₁ h₂ heq i hi1 hi2
    exact shuffleLoop_draws_unique d₁ d₂ (l.length - 1) l hnd (by omega)
      (fun m hm1 hm2 => h₁ m hm1 (by omega)) (fun m hm1 hm2 => h₂ m hm1 (by omega)) heq i hi1
      (by omega)

theorem shuffleArray_draws_bijective_witness :
    [1, 2, 3].Nodup ∧
    ∀ l' : List Nat, l'.Perm [1, 2, 3] →
      ∃ draw, Admissible [1, 2, 3].length draw ∧ shuffleArray draw [1, 2, 3] = l' :=
  ⟨by decide, (shuffleArray_draws_bijective [1, 2, 3] (by decide)).2.1⟩

/-- C8. In every state that a sequence of store operations reaches from the first
render (empty question list, `selectedQuestionIndex` null), each question has pairwise
distinct options.  The reason is that no question ever has an option:
`selectedQuestionIndex` stays null, so `addOption` returns before its updater, and
`updateOption` and `removeOption` are only called from the elements of an existing
option. -/
theorem store_options_pairwise_distinct (events : List Event) (s : AppState)
    (hrun : run events initialState = some s) :
    ∀ q ∈ s.questions, q.options.Nodup ∧ q.options = [] := by
  obtain ⟨_, hopt⟩ := run_keeps_no_options events initialState s rfl
    (fun q hq => absurd hq (List.not_mem_nil q)) hrun
  intro q hq
  rw [hopt q hq]
  exact ⟨List.nodup_nil, rfl⟩

theorem store_options_pairwise_distinct_witness :
    run [.addQuestion "q1", .addOption "a", .addQuestion "q2", .addOption "a",
        .shuffleQuestions (fun _ => 0) 2, .shuffleOptions (fun _ _ => 0),
        .updateQuestion 0 "q3", .removeQuestion 1] initialState
      = some { questions := [⟨"q3", []⟩], selectedQuestionIndex := none } ∧
    ∀ q ∈ [(⟨"q3", []⟩ : Question)], q.options.Nodup ∧ q.options = [] :=
  ⟨by decide,
    store_options_pairwise_distinct
      [.addQuestion "q1", .addOption "a", .addQuestion "q2", .addOption "a",
        .shuffleQuestions (fun _ => 0) 2, .shuffleOptions (fun _ _ => 0),
        .updateQuestion 0 "q3", .removeQuestion 1]
      { questions := [⟨"q3", []⟩], selectedQuestionIndex := none } (by decide)⟩

/-- The updater of `updateOption` makes no duplicate check of its own: on a question
that has the options `a` and `b` (a list the component never stores) it writes `a` over
`b`, where the updater of `addOption` leaves the list as it is. -/
theorem updateOption_has_no_duplicate_check :
    updateOption 0 1 "a" [⟨"q", ["a", "b"]⟩] = .stored [⟨"q", ["a", "a"]⟩] ∧
    addOption (some 0) "a" [⟨"q", ["a", "b"]⟩] = some [⟨"q", ["a", "b"]⟩] := by
  decide

/-- C9. With an empty question list and variant count 1, the document of `generatePDF`
is one page of size 600x800 whose instructions are the three header lines (x = 400,
y = 750, 730, 710, size 14) followed by the title line of variant 1 (x = 50, y = 670,
size 18), and nothing else. -/
theorem generatePDF_empty_single_variant {R : Type} [LinearOrderedCommRing R]
    (header : Header) (h : R) :
    generatePDF header [] 1 h =
      [{ width := 600, height := 800,
         lines := [{ x := 400, y := 750, text := "Subject: " ++ header.subject, size := 14 },
                   { x := 400, y := 730, text := "Grade: " ++ header.grade, size := 14 },
                   { x := 400, y := 710, text := "Date: " ++ header.date, size := 14 },
                   { x := 50, y := 670, text := "Variant 1", size := 18 }] }] := by
  have e1 : (800 : R) - 50 = 750 := by norm_num
  have e2 : (750 : R) - 20 = 730 := by norm_num
  have e3 : (750 : R) - 40 = 710 := by norm_num
  have e4 : (750 : R) - 80 = 670 := by norm_num
  have e5 : "Variant " ++ toString (0 + 1) = "Variant 1" := by decide
  simp [generatePDF, drawVariants, drawVariant, drawQuestions, drawHeader, Layout.drawText,
    newPage, pageMargin, height, e1, e2, e3, e4, e5]

/-- C10. For every option position `k`, the label that `generatePDF` puts before the
option is the letter of the alphabet string at index `k mod 26`, the capital letter with
code `65 + k mod 26`: no position gives a missing label and position 26 gives `A`.  In
the document `generatePDF` builds, the option lines read, variant after variant and
question after question, exactly that letter, a dot, a blank and the option, the
positions counted from 0 within each question; so the option at index 26 of a
27-option question is drawn with the label `A`. -/
theorem option_label_wraps_mod_26 :
    (∀ k, label k = alphabet.toList[k % 26]?) ∧
    (∀ k, label k = some (Char.ofNat (65 + k % 26))) ∧
    label 26 = some 'A' ∧
    (∀ (R : Type) [LinearOrderedCommRing R] (header : Header) (questions : List Question)
        (numVariants : Int) (h : R),
      optionLineTexts (allLines (generatePDF header questions numVariants h))
        = (List.replicate numVariants.toNat (questions.map fun q =>
            (q.options.enumFrom 0).map
              fun p => (Char.ofNat (65 + p.1 % 26)).toString ++ ". " ++ p.2).flatten).flatten) ∧
    (optionLineTexts (allLines (generatePDF (R := Int) ⟨"Math", "5", "2024-01-01"⟩
        [⟨"q", List.replicate 27 "o"⟩] 1 14)))[26]? = some "A. o" := by
  have htext : ∀ k option,
      optionText k option = (Char.ofNat (65 + k % 26)).toString ++ ". " ++ option := by
    intro k option
    simp [optionText, label_eq]
  refine ⟨fun _ => rfl, label_eq, rfl, ?_, ?_⟩
  · intro R _ header questions numVariants h
    rw [generatePDF_optionLineTexts]
    simp only [htext]
  · rw [generatePDF_optionLineTexts]
    decide

end TestCreator
